import Mathlib

/-!
Verification of `src/Problemas/fibonacci/fibonacci_efficiency.py`.

The script compares three Fibonacci strategies (naive recursion, iteration,
fast doubling), each returning a pair (value, step count), and a timing
harness `run_and_time` that packages results into `FibResult` records.
Python integers are modelled as `Int`; the measured wall-clock time, an
external input, is modelled as an explicit parameter of `run_and_time`.
-/

/-- The `FibResult` dataclass: one record per (algorithm, n) measurement.
`time_ms` comes from the external clock and is kept as a rational. -/
structure FibResult where
  n : Int
  value : Int
  steps : Int
  time_ms : Rat
  algo : String
deriving Repr, DecidableEq

/-- `fib_recursive_with_counts`: naive recursion.
Returns `(n, 1)` when `n < 2`, otherwise the sum of the two recursive
values together with `s1 + s2 + 1` steps. -/
def fib_recursive_with_counts (n : Int) : Int × Int :=
  if n < 2 then (n, 1)
  else
    let p1 := fib_recursive_with_counts (n - 1)
    let p2 := fib_recursive_with_counts (n - 2)
    (p1.1 + p2.1, p1.2 + p2.2 + 1)
termination_by n.toNat
decreasing_by
  · omega
  · omega

/-- The `for _ in range(2, n+1)` loop of `fib_iterative_with_counts`:
`m` remaining iterations of `a, b = b, a + b` with `steps += 1`. -/
def fibIterLoop : Nat → Int → Int → Int → Int × Int
  | 0, _, b, steps => (b, steps)
  | m + 1, a, b, steps => fibIterLoop m b (a + b) (steps + 1)

/-- `fib_iterative_with_counts`: returns `(n, 1)` when `n < 2`, otherwise
runs the loop (`n - 1` iterations, the length of `range(2, n+1)`) from
`a, b, steps = 0, 1, 1` and returns `(b, steps)`. -/
def fib_iterative_with_counts (n : Int) : Int × Int :=
  if n < 2 then (n, 1)
  else fibIterLoop (n - 1).toNat 0 1 1

/-- The inner helper `fd` of `fib_fast_doubling_with_counts`: on a
non-negative argument `k`, Python's `k >> 1` is `k / 2` and `k & 1`
tests `k % 2 = 1`; `f_k1 << 1` is `2 * f_k1`. Returns the triple
`(f_k, f_k1, s)` of the code. -/
def fd (k : Nat) : Int × Int × Int :=
  if k = 0 then (0, 1, 1)
  else
    let r := fd (k / 2)
    let c := r.1 * (2 * r.2.1 - r.1)
    let d := r.1 * r.1 + r.2.1 * r.2.1
    if k % 2 = 1 then (d, c + d, r.2.2 + 1)
    else (c, d, r.2.2 + 1)
termination_by k
decreasing_by
  · omega

/-- `fib_fast_doubling_with_counts`: calls `fd n` and keeps the first and
last components. The argument is a natural number: `fd` recurses forever
on negative Python integers (see `fdFuel`). -/
def fib_fast_doubling_with_counts (n : Nat) : Int × Int :=
  ((fd n).1, (fd n).2.2)

/-- Fuel-indexed model of `fd` over arbitrary Python integers, where the
argument may be negative: Python's `k >> 1` on a negative int is the floor
division `Int.fdiv k 2`, and `k & 1` tests `k % 2 = 1` (Lean's `%` on
`Int` is Euclidean, matching Python's sign convention). `none` means the
recursion did not finish within the given fuel. -/
def fdFuel : Nat → Int → Option (Int × Int × Int)
  | 0, _ => none
  | fuel + 1, k =>
    if k = 0 then some (0, 1, 1)
    else
      match fdFuel fuel (Int.fdiv k 2) with
      | none => none
      | some r =>
        let c := r.1 * (2 * r.2.1 - r.1)
        let d := r.1 * r.1 + r.2.1 * r.2.1
        if k % 2 = 1 then some (d, c + d, r.2.2 + 1)
        else some (c, d, r.2.2 + 1)

/-- `run_and_time`: applies the strategy `fn` to every `n` in `n_list`,
appending one `FibResult` per call. The two `time.perf_counter()` reads
are external; the elapsed milliseconds of the call at `n` are supplied by
the parameter `elapsedMs`. -/
def run_and_time (fn : Int → Int × Int) (elapsedMs : Int → Rat)
    (n_list : List Int) (name : String) : List FibResult :=
  match n_list with
  | [] => []
  | n :: rest =>
    let vs := fn n
    ⟨n, vs.1, vs.2, elapsedMs n, name⟩ :: run_and_time fn elapsedMs rest name

/-- The digit-count lambda of `main`:
`lambda x: 1 if x == 0 else int(math.log10(x)) + 1`, with
`int(math.log10 x)` modelled as the exact floor base-10 logarithm. -/
def digitsOfValue (x : Int) : Int :=
  if x = 0 then 1 else (Nat.log 10 x.toNat : Int) + 1

/-- Invariant of the iterative loop: starting from two consecutive
Fibonacci numbers, `m` iterations advance the pair by `m` and add `m`
to the step counter. -/
theorem fibIterLoop_spec (m : Nat) : ∀ (k : Nat) (s : Int),
    fibIterLoop m (Nat.fib k) (Nat.fib (k + 1)) s =
      ((Nat.fib (k + 1 + m) : Int), s + (m : Int)) := by
  induction m with
  | zero => intro k s; simp [fibIterLoop]
  | succ m ih =>
    intro k s
    have hb : ((Nat.fib k : Int)) + ((Nat.fib (k + 1) : Int))
        = ((Nat.fib (k + 1 + 1) : Int)) := by
      rw [show k + 1 + 1 = k + 2 from rfl, Nat.fib_add_two]
      push_cast
      ring
    rw [fibIterLoop, hb, ih (k + 1) (s + 1)]
    simp only [Prod.mk.injEq]
    constructor
    · rw [show k + 1 + 1 + m = k + 1 + (m + 1) from by omega]
    · push_cast
      ring

/-- The iterative strategy, in closed form: value `fib n`, step count
`max 1 n`. -/
theorem fib_iterative_eq (n : Nat) :
    fib_iterative_with_counts (n : Int) =
      ((Nat.fib n : Int), ((max 1 n : Nat) : Int)) := by
  unfold fib_iterative_with_counts
  by_cases h : (n : Int) < 2
  · rw [if_pos h]
    have : n = 0 ∨ n = 1 := by omega
    rcases this with rfl | rfl <;> simp [Nat.fib]
  · rw [if_neg h]
    have hn : 2 ≤ n := by omega
    have hm : ((n : Int) - 1).toNat = n - 1 := by omega
    rw [hm]
    have h0 : fibIterLoop (n - 1) 0 1 1
        = fibIterLoop (n - 1) (Nat.fib 0) (Nat.fib 1) 1 := rfl
    rw [h0, fibIterLoop_spec (n - 1) 0 1]
    simp only [Prod.mk.injEq]
    constructor
    · rw [show 0 + 1 + (n - 1) = n from by omega]
    · have : max 1 n = n := by omega
      rw [this]
      omega

/-- The pair invariant of `fd`: at every level it returns
`(F(k), F(k+1))` together with the step counter. -/
theorem fd_spec (n : Nat) :
    (fd n).1 = (Nat.fib n : Int) ∧ (fd n).2.1 = (Nat.fib (n + 1) : Int) := by
  induction n using Nat.strong_induction_on with
  | _ n ih =>
    by_cases h : n = 0
    · subst h
      constructor <;> simp [fd, Nat.fib]
    · obtain ⟨h1, h2⟩ := ih (n / 2) (by omega)
      have hle : Nat.fib (n / 2) ≤ 2 * Nat.fib (n / 2 + 1) :=
        le_trans Nat.fib_le_fib_succ (by omega)
      have hc : (Nat.fib (n / 2) : Int) *
            (2 * (Nat.fib (n / 2 + 1) : Int) - (Nat.fib (n / 2) : Int))
          = (Nat.fib (2 * (n / 2)) : Int) := by
        rw [Nat.fib_two_mul, Nat.cast_mul, Nat.cast_sub hle]
        push_cast
        ring
      have hd : (Nat.fib (n / 2) : Int) * (Nat.fib (n / 2) : Int) +
            (Nat.fib (n / 2 + 1) : Int) * (Nat.fib (n / 2 + 1) : Int)
          = (Nat.fib (2 * (n / 2) + 1) : Int) := by
        rw [Nat.fib_two_mul_add_one]
        push_cast
        ring
      rw [fd, if_neg h]
      by_cases hp : n % 2 = 1
      · have hn : n = 2 * (n / 2) + 1 := by omega
        simp only [if_pos hp, h1, h2]
        constructor
        · rw [hd]
          exact congrArg _ (congrArg Nat.fib hn.symm)
        · rw [hc, hd]
          have : (Nat.fib (2 * (n / 2)) : Int) + (Nat.fib (2 * (n / 2) + 1) : Int)
              = (Nat.fib (2 * (n / 2) + 2) : Int) := by
            rw [Nat.fib_add_two]
            push_cast
            ring
          rw [this]
          have hn1 : n + 1 = 2 * (n / 2) + 2 := by omega
          rw [hn1]
      · have hn : n = 2 * (n / 2) := by omega
        simp only [if_neg hp, h1, h2]
        constructor
        · rw [hc]
          exact congrArg _ (congrArg Nat.fib hn.symm)
        · rw [hd]
          have hn1 : n + 1 = 2 * (n / 2) + 1 := by omega
          rw [hn1]

/-- Value component of the naive recursive strategy. -/
theorem fib_recursive_value (n : Nat) :
    (fib_recursive_with_counts (n : Int)).1 = (Nat.fib n : Int) := by
  induction n using Nat.strong_induction_on with
  | _ n ih =>
    by_cases h : (n : Int) < 2
    · have : n = 0 ∨ n = 1 := by omega
      rcases this with rfl | rfl <;> simp [fib_recursive_with_counts, Nat.fib]
    · have hn : 2 ≤ n := by omega
      rw [fib_recursive_with_counts, if_neg h]
      have e1 : (n : Int) - 1 = ((n - 1 : Nat) : Int) := by omega
      have e2 : (n : Int) - 2 = ((n - 2 : Nat) : Int) := by omega
      simp only [e1, e2]
      rw [ih (n - 1) (by omega), ih (n - 2) (by omega)]
      have hfib : Nat.fib n = Nat.fib (n - 2) + Nat.fib (n - 2 + 1) := by
        rw [← Nat.fib_add_two]
        exact congrArg Nat.fib (by omega)
      rw [hfib, show n - 2 + 1 = n - 1 from by omega]
      push_cast
      ring

/-- `fd` adds exactly one step per halving level. -/
theorem fd_steps_level (k : Nat) (h : k ≠ 0) :
    (fd k).2.2 = (fd (k / 2)).2.2 + 1 := by
  rw [fd, if_neg h]
  by_cases hp : k % 2 = 1 <;> simp [hp]

/-- Step count of `fd` at powers of two: `k + 2`. -/
theorem fd_steps_pow (k : Nat) : (fd (2 ^ k)).2.2 = (k : Int) + 2 := by
  induction k with
  | zero => simp [fd]
  | succ k ih =>
    have h2 : (2 : Nat) ^ (k + 1) ≠ 0 := by positivity
    rw [fd_steps_level _ h2, pow_succ, Nat.mul_div_cancel _ (by norm_num), ih]
    push_cast
    ring

/-- With enough fuel, the fuel-indexed model of `fd` agrees with `fd` on
every natural argument. -/
theorem fdFuel_eq_fd (fuel : Nat) : ∀ n : Nat, n < fuel →
    fdFuel fuel (n : Int) = some (fd n) := by
  induction fuel with
  | zero => intro n h; omega
  | succ fuel ih =>
    intro n h
    by_cases h0 : n = 0
    · subst h0
      simp [fdFuel, fd]
    · have hne : (n : Int) ≠ 0 := by exact_mod_cast h0
      have hdiv : Int.fdiv (n : Int) 2 = ((n / 2 : Nat) : Int) := by
        rw [Int.fdiv_eq_ediv _ (by norm_num)]
        push_cast
        rfl
      rw [fdFuel, if_neg hne, hdiv, ih (n / 2) (by omega)]
      conv_rhs => rw [fd, if_neg h0]
      by_cases hp : n % 2 = 1
      · have hp2 : (n : Int) % 2 = 1 := by omega
        simp only [if_pos hp, if_pos hp2]
      · have hp2 : ¬ ((n : Int) % 2 = 1) := by omega
        simp only [if_neg hp, if_neg hp2]

/-- On the Python integer `-1`, the recursion never reaches the base case:
`-1 >> 1 == -1`, so no amount of fuel suffices. -/
theorem fdFuel_neg_one (fuel : Nat) : fdFuel fuel (-1) = none := by
  induction fuel with
  | zero => rfl
  | succ fuel ih =>
    have hdiv : Int.fdiv (-1) 2 = -1 := by decide
    rw [fdFuel, if_neg (by decide), hdiv, ih]

/-- `run_and_time` is the map that packages each call of the strategy. -/
theorem run_and_time_eq_map (fn : Int → Int × Int) (elapsedMs : Int → Rat)
    (name : String) : ∀ n_list : List Int,
    run_and_time fn elapsedMs n_list name =
      n_list.map (fun n => ⟨n, (fn n).1, (fn n).2, elapsedMs n, name⟩) := by
  intro n_list
  induction n_list with
  | nil => rfl
  | cons n rest ih => rw [run_and_time, ih]; rfl

/-- Claim C1: the three strategies agree on the computed Fibonacci value at
every non-negative `n` (in particular on `{0,...,30}`): the first components
of `fib_recursive_with_counts`, `fib_iterative_with_counts` and
`fib_fast_doubling_with_counts` coincide. -/
theorem claim_C1_strategies_agree (n : Nat) :
    (fib_recursive_with_counts (n : Int)).1 = (fib_iterative_with_counts (n : Int)).1 ∧
    (fib_iterative_with_counts (n : Int)).1 = (fib_fast_doubling_with_counts n).1 := by
  have hr := fib_recursive_value n
  have hi := fib_iterative_eq n
  have hf := (fd_spec n).1
  constructor
  · rw [hr, hi]
  · rw [hi]
    show _ = (fd n).1
    rw [hf]

/-- Claim C2: `fib_fast_doubling_with_counts n` returns `fib n` as its
value; the inner recursion `fd` bottoms out at `k = 0` with `(0, 1)` and
at every level returns the pair `(F(k), F(k+1))`. -/
theorem claim_C2_fast_doubling_correct (n : Nat) :
    (fib_fast_doubling_with_counts n).1 = (Nat.fib n : Int) ∧
    (fd n).1 = (Nat.fib n : Int) ∧
    (fd n).2.1 = (Nat.fib (n + 1) : Int) ∧
    fd 0 = (0, 1, 1) := by
  refine ⟨(fd_spec n).1, (fd_spec n).1, (fd_spec n).2, by simp [fd]⟩

/-- Claim C3: the naive recursive strategy returns `fib n` as its value,
step count `1` for `n < 2`, and otherwise one more than the sum of the
step counts of the two recursive sub-calls. -/
theorem claim_C3_recursive_spec (n : Int) (h : 0 ≤ n) :
    (fib_recursive_with_counts n).1 = (Nat.fib n.toNat : Int) ∧
    (n < 2 → (fib_recursive_with_counts n).2 = 1) ∧
    (2 ≤ n → (fib_recursive_with_counts n).2 =
      1 + (fib_recursive_with_counts (n - 1)).2 + (fib_recursive_with_counts (n - 2)).2) := by
  refine ⟨?_, ?_, ?_⟩
  · have hv := fib_recursive_value n.toNat
    rwa [Int.toNat_of_nonneg h] at hv
  · intro h2
    rw [fib_recursive_with_counts, if_pos h2]
  · intro h2
    have hu : fib_recursive_with_counts n =
        ((fib_recursive_with_counts (n - 1)).1 + (fib_recursive_with_counts (n - 2)).1,
         (fib_recursive_with_counts (n - 1)).2 + (fib_recursive_with_counts (n - 2)).2 + 1) := by
      rw [fib_recursive_with_counts, if_neg (show ¬ n < 2 by omega)]
    rw [hu]
    ring

/-- Witness for C3 at the concrete input `n = 5`. -/
theorem claim_C3_recursive_spec_witness :
    (fib_recursive_with_counts 5).1 = (Nat.fib (5 : Int).toNat : Int) ∧
    ((5 : Int) < 2 → (fib_recursive_with_counts 5).2 = 1) ∧
    (2 ≤ (5 : Int) → (fib_recursive_with_counts 5).2 =
      1 + (fib_recursive_with_counts (5 - 1)).2 + (fib_recursive_with_counts (5 - 2)).2) :=
  claim_C3_recursive_spec 5 (by norm_num)

/-- Claim C4: the iterative strategy returns `fib n` as its value, with
step count `1` for `n < 2` and `n` for `n ≥ 2` (equivalently `max 1 n`
for `n ≥ 1`). -/
theorem claim_C4_iterative_spec (n : Int) (h : 0 ≤ n) :
    (fib_iterative_with_counts n).1 = (Nat.fib n.toNat : Int) ∧
    (n < 2 → (fib_iterative_with_counts n).2 = 1) ∧
    (2 ≤ n → (fib_iterative_with_counts n).2 = n) ∧
    (1 ≤ n → (fib_iterative_with_counts n).2 = max 1 n) := by
  have he := fib_iterative_eq n.toNat
  rw [Int.toNat_of_nonneg h] at he
  rw [he]
  refine ⟨rfl, ?_, ?_, ?_⟩ <;> intro h2 <;> simp only [Nat.cast_max] <;> push_cast <;> omega

/-- Witness for C4 at the concrete input `n = 7`. -/
theorem claim_C4_iterative_spec_witness :
    (fib_iterative_with_counts 7).1 = (Nat.fib (7 : Int).toNat : Int) ∧
    ((7 : Int) < 2 → (fib_iterative_with_counts 7).2 = 1) ∧
    (2 ≤ (7 : Int) → (fib_iterative_with_counts 7).2 = 7) ∧
    (1 ≤ (7 : Int) → (fib_iterative_with_counts 7).2 = max 1 7) :=
  claim_C4_iterative_spec 7 (by norm_num)

/-- Counterexample for C5: at `n = 1` the fast-doubling strategy returns
`(1, 2)`, not `(1, 1)` as claimed. -/
theorem claim_C5_counterexample :
    ¬ (fib_fast_doubling_with_counts 0 = (0, 1) ∧
       fib_fast_doubling_with_counts 1 = (1, 1)) := by
  intro hc
  have h1 := hc.2
  simp [fib_fast_doubling_with_counts, fd] at h1

/-- Claim C5, amended: `fib_fast_doubling_with_counts 0 = (0, 1)` —
value `0` with base-case step count `1` consistent with the other
strategies — and `fib_fast_doubling_with_counts 1 = (1, 2)`. -/
theorem claim_C5_amended :
    fib_fast_doubling_with_counts 0 = (0, 1) ∧
    fib_fast_doubling_with_counts 1 = (1, 2) := by
  constructor <;> simp [fib_fast_doubling_with_counts, fd]

/-- Claim C6: the fast-doubling step count grows logarithmically: it
increments by exactly 1 per recursive halving level, equals `k + 2` at
`n = 2 ^ k`, and in particular the step count at `2 ^ 20` is less than
three times the step count at `2 ^ 10`. -/
theorem claim_C6_log_steps :
    (∀ k : Nat, k ≠ 0 →
      (fib_fast_doubling_with_counts k).2 = (fib_fast_doubling_with_counts (k / 2)).2 + 1) ∧
    (∀ k : Nat, (fib_fast_doubling_with_counts (2 ^ k)).2 = (k : Int) + 2) ∧
    (fib_fast_doubling_with_counts (2 ^ 20)).2 < (fib_fast_doubling_with_counts (2 ^ 10)).2 * 3 := by
  refine ⟨fun k hk => fd_steps_level k hk, fun k => fd_steps_pow k, ?_⟩
  have h20 : (fib_fast_doubling_with_counts (2 ^ 20)).2 = ((20 : Nat) : Int) + 2 :=
    fd_steps_pow 20
  have h10 : (fib_fast_doubling_with_counts (2 ^ 10)).2 = ((10 : Nat) : Int) + 2 :=
    fd_steps_pow 10
  rw [h20, h10]
  norm_num

/-- Witness for C6: the per-level increment at the concrete input `k = 10`. -/
theorem claim_C6_log_steps_witness :
    (fib_fast_doubling_with_counts 10).2 = (fib_fast_doubling_with_counts (10 / 2)).2 + 1 :=
  claim_C6_log_steps.1 10 (by norm_num)

/-- Claim C7: `run_and_time` returns exactly one `FibResult` per element
of the input list, in order, with the `n`, `value`, `steps` and `algo`
fields determined by the strategy and the label; it is a pure function of
its inputs. -/
theorem claim_C7_run_and_time (fn : Int → Int × Int) (elapsedMs : Int → Rat)
    (n_list : List Int) (name : String) :
    (run_and_time fn elapsedMs n_list name).length = n_list.length ∧
    ∀ i : Nat, ∀ hi : i < n_list.length,
      (run_and_time fn elapsedMs n_list name)[i]? =
        some ⟨n_list[i], (fn n_list[i]).1, (fn n_list[i]).2, elapsedMs n_list[i], name⟩ := by
  rw [run_and_time_eq_map]
  refine ⟨List.length_map _ _, ?_⟩
  intro i hi
  rw [List.getElem?_map, List.getElem?_eq_getElem hi]
  rfl

/-- Witness for C7 at the concrete strategy `fib_iterative_with_counts`,
input list `[0, 5]`, index `1`. -/
theorem claim_C7_run_and_time_witness :
    (run_and_time fib_iterative_with_counts (fun _ => (0 : Rat)) [0, 5] "iterative")[1]? =
      some ⟨(([0, 5] : List Int))[1], (fib_iterative_with_counts (([0, 5] : List Int))[1]).1,
        (fib_iterative_with_counts (([0, 5] : List Int))[1]).2,
        (fun _ => (0 : Rat)) (([0, 5] : List Int))[1], "iterative"⟩ :=
  (claim_C7_run_and_time fib_iterative_with_counts (fun _ => (0 : Rat)) [0, 5] "iterative").2
    1 (by norm_num)

/-- Claim C8: the digit-count derivation maps `0` to `1` and
`fib 100 = 354224848179261915075` to `21`; the program indeed computes
that value at `n = 100`. -/
theorem claim_C8_digit_count :
    digitsOfValue 0 = 1 ∧
    digitsOfValue 354224848179261915075 = 21 ∧
    (fib_fast_doubling_with_counts 100).1 = 354224848179261915075 := by
  refine ⟨by simp [digitsOfValue], ?_, ?_⟩
  · rw [digitsOfValue, if_neg (by norm_num)]
    have ht : ((354224848179261915075 : Int)).toNat = 354224848179261915075 := rfl
    rw [ht]
    have hl : Nat.log 10 354224848179261915075 = 20 :=
      Nat.log_eq_of_pow_le_of_lt_pow (by norm_num) (by norm_num)
    rw [hl]
    norm_num
  · simp [fib_fast_doubling_with_counts, fd]

/-- Claim C9: every negative integer falls into the `n < 2` base case of
both the recursive and the iterative strategy, which silently return the
input itself as the value, with step count 1. -/
theorem claim_C9_negative_passthrough (n : Int) (h : n < 0) :
    fib_recursive_with_counts n = (n, 1) ∧ fib_iterative_with_counts n = (n, 1) := by
  have h2 : n < 2 := by omega
  constructor
  · rw [fib_recursive_with_counts, if_pos h2]
  · unfold fib_iterative_with_counts
    rw [if_pos h2]

/-- Witness for C9 at the concrete input `n = -5`. -/
theorem claim_C9_negative_passthrough_witness :
    fib_recursive_with_counts (-5) = (-5, 1) ∧ fib_iterative_with_counts (-5) = (-5, 1) :=
  claim_C9_negative_passthrough (-5) (by norm_num)

/-- Claim C10: for every `n ≥ 0` the fast-doubling recursion terminates —
`n + 1` units of fuel suffice for the fuel-indexed model to reach the
base case and agree with the total function `fd` — and the non-negativity
precondition is necessary: at `-1`, where Python's `k >> 1` leaves the
argument unchanged, no amount of fuel suffices. -/
theorem claim_C10_termination :
    (∀ n : Nat, fdFuel (n + 1) (n : Int) = some (fd n)) ∧
    (∀ fuel : Nat, fdFuel fuel (-1) = none) :=
  ⟨fun n => fdFuel_eq_fd (n + 1) n (by omega), fdFuel_neg_one⟩
